import Mathlib

/-!
Verification of the transaction lifecycle tracker (src/src/solutions/emidesejas.ts).

The tracker is a single stateful reactor over three event kinds
(newBlock, newTransaction, finalized).  We embed it shallowly:

* JS `Map`s become insertion-ordered association lists (`mapGet`, `mapSet`,
  `mapDelete` mirror `Map.get`, `Map.set`, `Map.delete`; `Map.set` on an
  existing key overwrites in place, keeping the entry's position).
* JS `Set`s over strings become insertion-ordered lists with membership
  (`setAdd` mirrors `Set.add`).
* The chain-data provider (`api`) is a record of pure functions; every
  provider query and every sink callback made by a handler is recorded, in
  program order, in a trace of `Call`s.
* The `do/while` loop of `onFinalized` is written with an explicit fuel
  parameter; the handler passes fuel `blocks.length + 1`, which strictly
  exceeds the number of iterations because every iteration that continues
  deletes the (present) current entry from the block index
  (`finalizeLoop_fuel` proves the result is independent of any sufficient
  fuel, so the fuel-0 branch is unreachable at the call site).
-/

namespace TxTracker

/-- Outcome reported to the output sink: a valid settlement carrying the
success flag, or an invalid settlement; both carry the block hash. -/
inductive TxOutcome
  | valid (blockHash : String) (successful : Bool)
  | invalid (blockHash : String)
  deriving DecidableEq

/-- One observable call made by the tracker: a provider query (`getBody`,
`isTxValid`, `isTxSuccessful`, `unpin`) or a sink callback (`txSettled` for
`onTxSettled`, `txDone` for `onTxDone`). -/
inductive Call
  | getBody (blockHash : String)
  | isTxValid (blockHash tx : String)
  | isTxSuccessful (blockHash tx : String)
  | unpin (blockHashes : List String)
  | txSettled (tx : String) (outcome : TxOutcome)
  | txDone (tx : String) (outcome : TxOutcome)
  deriving DecidableEq

/-- The chain-data provider, modelled as pure total functions. -/
structure Provider where
  getBody : String → List String
  isTxValid : String → String → Bool
  isTxSuccessful : String → String → Bool

/-- Incoming events, as in the source's `IncomingEvent` union. -/
inductive Event
  | newBlock (blockHash parent : String)
  | newTransaction (value : String)
  | finalized (blockHash : String)
  deriving DecidableEq

/-- `Map.get` on an insertion-ordered association list. -/
def mapGet {α : Type} (m : List (String × α)) (k : String) : Option α :=
  match m with
  | [] => none
  | (k', v) :: rest => if k' = k then some v else mapGet rest k

/-- `Map.set`: overwrite the value in place when the key is present (the
entry keeps its position); append a fresh entry otherwise. -/
def mapSet {α : Type} (m : List (String × α)) (k : String) (v : α) :
    List (String × α) :=
  match m with
  | [] => [(k, v)]
  | (k', v') :: rest =>
    if k' = k then (k, v) :: rest else (k', v') :: mapSet rest k v

/-- `Map.delete`. -/
def mapDelete {α : Type} (m : List (String × α)) (k : String) :
    List (String × α) :=
  match m with
  | [] => []
  | (k', v) :: rest => if k' = k then rest else (k', v) :: mapDelete rest k

/-- `Set.add` on an insertion-ordered list of strings. -/
def setAdd (s : List String) (b : String) : List String :=
  if b ∈ s then s else s ++ [b]

/-- The tracker's state: the block index `blocks` (block hash ↦ parent hash),
the registry `trackedTransactions` in arrival order (transaction ↦ list of
blocks in which it was observed invalid), and `lastFinalizedBlock`. -/
structure TrackerState where
  blocks : List (String × String)
  trackedTransactions : List (String × List String)
  lastFinalizedBlock : Option String
  deriving DecidableEq

/-- The `trackedTransactions.forEach` body of the `onNewBlock` handler,
processing the registry entries in arrival order: a transaction in the
block's body settles valid (querying `isTxSuccessful` once); otherwise
`isTxValid` is queried and, when it is false, the transaction settles
invalid and the block is added to its `invalidInBlock` set. -/
def settleTxs (p : Provider) (blockHash : String) (body : List String) :
    List (String × List String) → List (String × List String) × List Call
  | [] => ([], [])
  | (tx, inv) :: rest =>
    let r := settleTxs p blockHash body rest
    if tx ∈ body then
      ((tx, inv) :: r.1,
        Call.isTxSuccessful blockHash tx ::
          Call.txSettled tx
            (TxOutcome.valid blockHash (p.isTxSuccessful blockHash tx)) :: r.2)
    else if p.isTxValid blockHash tx then
      ((tx, inv) :: r.1, Call.isTxValid blockHash tx :: r.2)
    else
      ((tx, setAdd inv blockHash) :: r.1,
        Call.isTxValid blockHash tx ::
          Call.txSettled tx (TxOutcome.invalid blockHash) :: r.2)

/-- The `onNewBlock` handler: index the block, fetch its body once, then run
the per-transaction loop. -/
def onNewBlock (p : Provider) (s : TrackerState) (blockHash parentHash : String) :
    TrackerState × List Call :=
  let r := settleTxs p blockHash (p.getBody blockHash) s.trackedTransactions
  (⟨mapSet s.blocks blockHash parentHash, r.1, s.lastFinalizedBlock⟩,
    Call.getBody blockHash :: r.2)

/-- The `onNewTx` handler: `trackedTransactions.set(tx, fresh empty set)`. -/
def onNewTx (s : TrackerState) (tx : String) : TrackerState × List Call :=
  (⟨s.blocks, mapSet s.trackedTransactions tx [], s.lastFinalizedBlock⟩, [])

/-- The `trackedTransactions.forEach` body inside the finalization loop, at
visited block `current` of the walk whose terminal finalized block is
`terminal`: a transaction in `current`'s body gets a valid done call
(querying `isTxSuccessful` once) and is deleted from the registry; otherwise,
if its `invalidInBlock` set contains `terminal` (the event's own block hash,
not `current`), it gets an invalid done call and stays registered. -/
def finalizeTxs (p : Provider) (terminal current : String) (body : List String) :
    List (String × List String) → List (String × List String) × List Call
  | [] => ([], [])
  | (tx, inv) :: rest =>
    let r := finalizeTxs p terminal current body rest
    if tx ∈ body then
      (r.1,
        Call.isTxSuccessful current tx ::
          Call.txDone tx
            (TxOutcome.valid current (p.isTxSuccessful current tx)) :: r.2)
    else if terminal ∈ inv then
      ((tx, inv) :: r.1, Call.txDone tx (TxOutcome.invalid current) :: r.2)
    else
      ((tx, inv) :: r.1, r.2)

/-- Result of the finalization loop: final block index, final registry, the
visited blocks in visit order (the source's `blocksToUnpin`), and the calls
emitted during the walk. -/
structure LoopResult where
  blocks : List (String × String)
  registry : List (String × List String)
  visited : List String
  calls : List Call
  deriving DecidableEq

/-- The `do/while` loop of `onFinalized`: fetch the current block's body,
process the registry, push the current block onto the unpin list, then stop
when the current block is absent from the index, and otherwise delete it and
continue with its parent unless the parent is empty (falsy) or equals the
cursor `lastFinalizedBlock`.  The fuel argument strictly dominates the
iteration count when instantiated with `blocks.length + 1`. -/
def finalizeLoop (p : Provider) (terminal cursor : String) :
    Nat → List (String × String) → List (String × List String) → String →
      LoopResult
  | 0, blocks, reg, _ => ⟨blocks, reg, [], []⟩
  | fuel + 1, blocks, reg, current =>
    let r := finalizeTxs p terminal current (p.getBody current) reg
    let calls := Call.getBody current :: r.2
    match mapGet blocks current with
    | none => ⟨blocks, r.1, [current], calls⟩
    | some par =>
      let blocks' := mapDelete blocks current
      if par = "" then ⟨blocks', r.1, [current], calls⟩
      else if par = cursor then ⟨blocks', r.1, [current], calls⟩
      else
        let res := finalizeLoop p terminal cursor fuel blocks' r.1 par
        ⟨res.blocks, res.registry, current :: res.visited, calls ++ res.calls⟩

/-- The pure chain walk underlying the finalization loop: the list of blocks
the loop visits, computed from the block index and the cursor alone. -/
def walkBlocks (cursor : String) : Nat → List (String × String) → String →
    List String
  | 0, _, _ => []
  | fuel + 1, blocks, current =>
    match mapGet blocks current with
    | none => [current]
    | some par =>
      if par = "" then [current]
      else if par = cursor then [current]
      else current :: walkBlocks cursor fuel (mapDelete blocks current) par

/-- The `onFinalized` handler: a null cursor is first replaced by the event's
own block hash, the walk is run, `unpin` is called once with the visited
blocks, and the cursor advances to the event's block hash. -/
def onFinalized (p : Provider) (s : TrackerState) (blockHash : String) :
    TrackerState × List Call :=
  let cursor := s.lastFinalizedBlock.getD blockHash
  let r := finalizeLoop p blockHash cursor (s.blocks.length + 1) s.blocks
    s.trackedTransactions blockHash
  (⟨r.blocks, r.registry, some blockHash⟩, r.calls ++ [Call.unpin r.visited])

/-- Dispatch on the event kind, as in the source's `switch`. -/
def handleEvent (p : Provider) (s : TrackerState) : Event → TrackerState × List Call
  | .newBlock b par => onNewBlock p s b par
  | .newTransaction v => onNewTx s v
  | .finalized b => onFinalized p s b

/-- The freshly constructed tracker: empty index, empty registry, null cursor. -/
def initialState : TrackerState := ⟨[], [], none⟩

/-- Run the tracker from a given state over an event list, concatenating the
emitted call traces in event order. -/
def runFrom (p : Provider) (s : TrackerState) : List Event → TrackerState × List Call
  | [] => (s, [])
  | e :: es =>
    let r := handleEvent p s e
    let r' := runFrom p r.1 es
    (r'.1, r.2 ++ r'.2)

/-- Run the tracker from the initial state. -/
def run (p : Provider) (es : List Event) : TrackerState × List Call :=
  runFrom p initialState es

/-- Number of `onTxSettled` calls for a given transaction in a trace. -/
def txSettledCount (tx : String) (calls : List Call) : Nat :=
  calls.countP fun c =>
    match c with
    | Call.txSettled t _ => t == tx
    | _ => false

/-- Number of `onTxDone` calls for a given transaction in a trace. -/
def txDoneCount (tx : String) (calls : List Call) : Nat :=
  calls.countP fun c =>
    match c with
    | Call.txDone t _ => t == tx
    | _ => false

/-- Number of `isTxSuccessful` queries for a given block and transaction. -/
def succQueryCount (b tx : String) (calls : List Call) : Nat :=
  calls.countP fun c =>
    match c with
    | Call.isTxSuccessful b' t => b' == b && t == tx
    | _ => false

/-- The arguments of the `unpin` calls in a trace, in order. -/
def unpinArgs (calls : List Call) : List (List String) :=
  calls.filterMap fun c =>
    match c with
    | Call.unpin l => some l
    | _ => none

/-- The transactions of the `onTxDone` calls in a trace, in emission order. -/
def doneTxSeq (calls : List Call) : List String :=
  calls.filterMap fun c =>
    match c with
    | Call.txDone t _ => some t
    | _ => none

/-- Modelled from the spec: the finalization walk visits the parent chain in
child-to-parent order starting at the newly finalized block, and stops when
the current block is absent from the block index (that block is still
processed), when no parent is known (empty parent hash), or when the parent
equals the previous finalization cursor; otherwise it continues at the
parent, the current block having been removed from the index. -/
inductive IsWalk (cursor : String) :
    List (String × String) → String → List String → Prop
  | stop_absent {blocks current} :
      mapGet blocks current = none → IsWalk cursor blocks current [current]
  | stop_no_parent {blocks current} :
      mapGet blocks current = some "" → IsWalk cursor blocks current [current]
  | stop_cursor {blocks current} :
      mapGet blocks current = some cursor → IsWalk cursor blocks current [current]
  | next {blocks current par rest} :
      mapGet blocks current = some par → par ≠ "" → par ≠ cursor →
      IsWalk cursor (mapDelete blocks current) par rest →
      IsWalk cursor blocks current (current :: rest)

/-- Provider for the double-done run: empty bodies everywhere, and the
validity oracle rejects transaction `T` exactly at block `B2`. -/
def doubleDoneProvider : Provider :=
  ⟨fun _ => [], fun b t => !(b == "B2" && t == "T"), fun _ _ => true⟩

/-- Register `T`, announce `B1` (root) and `B2` (child of `B1`), finalize `B2`. -/
def doubleDoneEvents : List Event :=
  [.newTransaction "T", .newBlock "B1" "", .newBlock "B2" "B1", .finalized "B2"]

/-- Provider for the double-settled run: every block body contains `T`. -/
def doubleSettleProvider : Provider :=
  ⟨fun _ => ["T"], fun _ _ => true, fun _ _ => true⟩

/-- Register `T`, then announce two blocks that both include it. -/
def doubleSettleEvents : List Event :=
  [.newTransaction "T", .newBlock "B1" "", .newBlock "B2" "B1"]

/-- Provider for the arrival-order run: `B2`'s body is `[T1]`, `B3`'s body is
`[T2]`, all other bodies empty; everything valid and successful. -/
def crossBlockProvider : Provider :=
  ⟨fun b => if b == "B2" then ["T1"] else if b == "B3" then ["T2"] else [],
    fun _ _ => true, fun _ _ => true⟩

/-- Register `T1` then `T2`, finalize `G`, announce `B2` (child of `G`,
includes `T1`) and `B3` (child of `B2`, includes `T2`), finalize `B3`. -/
def crossBlockEvents : List Event :=
  [.newTransaction "T1", .newTransaction "T2", .finalized "G",
    .newBlock "B2" "G", .newBlock "B3" "B2", .finalized "B3"]

/-- Provider for the three-block walk scenario: empty bodies, all valid. -/
def walkScenarioProvider : Provider :=
  ⟨fun _ => [], fun _ _ => true, fun _ _ => true⟩

/-- Finalize `G`, announce the pinned chain `B1` (child of `G`), `B2`, `B3`,
with no finalization event for `B1` or `B2`, then finalize `B3`. -/
def walkScenarioEvents : List Event :=
  [.finalized "G", .newBlock "B1" "G", .newBlock "B2" "B1", .newBlock "B3" "B2",
    .finalized "B3"]

/-- Provider for the invalid-settlement witness: empty bodies, nothing valid. -/
def invalidDoneProvider : Provider :=
  ⟨fun _ => [], fun _ _ => false, fun _ _ => true⟩

/-- State in which `T` is registered and already recorded invalid in `B`. -/
def invalidDoneState : TrackerState := ⟨[], [("T", ["B"])], none⟩

/-- Provider for the terminal-scoping witness: empty bodies everywhere. -/
def terminalCheckProvider : Provider :=
  ⟨fun _ => [], fun _ _ => true, fun _ _ => true⟩

/-- Provider for the trichotomy witness: block `B`'s body is `[T]`. -/
def trichotomyProvider : Provider :=
  ⟨fun b => if b == "B" then ["T"] else [], fun _ _ => true, fun _ _ => true⟩

/-- State in which `T` is registered with an empty invalidity set. -/
def trichotomyState : TrackerState := ⟨[], [("T", [])], none⟩

/-- Provider for the inclusion-done witness: every body is `[T]`. -/
def inclusionDoneProvider : Provider :=
  ⟨fun _ => ["T"], fun _ _ => true, fun _ _ => true⟩

/-- State in which `T` is registered with an empty invalidity set. -/
def inclusionDoneState : TrackerState := ⟨[], [("T", [])], none⟩

/-- State with two registered transactions, `T` (recorded invalid in `B`)
followed by `U`. -/
def reregState : TrackerState := ⟨[], [("T", ["B"]), ("U", [])], none⟩

/-- A key is absent exactly when `mapGet` returns `none`. -/
theorem mapGet_eq_none {α : Type} (m : List (String × α)) (k : String) :
    mapGet m k = none ↔ k ∉ m.map Prod.fst := by
  induction m with
  | nil => simp [mapGet]
  | cons hd tl ih =>
    obtain ⟨k', v⟩ := hd
    by_cases h : k' = k
    · subst h
      simp [mapGet]
    · simp only [mapGet, if_neg h, List.map_cons, List.mem_cons, ih]
      constructor
      · intro hk hor
        cases hor with
        | inl h1 => exact h h1.symm
        | inr h2 => exact hk h2
      · intro hk hm
        exact hk (Or.inr hm)

/-- A successful `mapGet` exhibits a member of the list. -/
theorem mapGet_mem {α : Type} {m : List (String × α)} {k : String} {v : α}
    (h : mapGet m k = some v) : (k, v) ∈ m := by
  induction m with
  | nil => simp [mapGet] at h
  | cons hd tl ih =>
    obtain ⟨k', v'⟩ := hd
    by_cases hk : k' = k
    · subst hk
      simp [mapGet] at h
      subst h
      exact List.mem_cons_self _ _
    · simp only [mapGet, if_neg hk] at h
      exact List.mem_cons_of_mem _ (ih h)

/-- `mapSet` makes the written key read back the written value. -/
theorem mapGet_mapSet_self {α : Type} (m : List (String × α)) (k : String)
    (v : α) : mapGet (mapSet m k v) k = some v := by
  induction m with
  | nil => simp [mapSet, mapGet]
  | cons hd tl ih =>
    obtain ⟨k', v'⟩ := hd
    by_cases h : k' = k
    · simp [mapSet, if_pos h, mapGet]
    · simp [mapSet, if_neg h, mapGet, h, ih]

/-- `mapSet` leaves other keys unchanged. -/
theorem mapGet_mapSet_ne {α : Type} (m : List (String × α)) {k t : String}
    (v : α) (h : t ≠ k) : mapGet (mapSet m k v) t = mapGet m t := by
  induction m with
  | nil => simp [mapSet, mapGet, Ne.symm h]
  | cons hd tl ih =>
    obtain ⟨k', v'⟩ := hd
    by_cases hk : k' = k
    · subst hk
      simp [mapSet, mapGet, Ne.symm h]
    · simp [mapSet, if_neg hk, mapGet, ih]

/-- Overwriting a present key preserves the key sequence (the entry keeps
its position). -/
theorem mapSet_keys_of_mem {α : Type} {m : List (String × α)} {k : String}
    {w : α} (v : α) (h : mapGet m k = some w) :
    (mapSet m k v).map Prod.fst = m.map Prod.fst := by
  induction m with
  | nil => simp [mapGet] at h
  | cons hd tl ih =>
    obtain ⟨k', v'⟩ := hd
    by_cases hk : k' = k
    · subst hk
      simp [mapSet]
    · simp only [mapGet, if_neg hk] at h
      simp [mapSet, if_neg hk, ih h]

/-- Writing an absent key appends it at the end of the key sequence. -/
theorem mapSet_keys_of_none {α : Type} {m : List (String × α)} {k : String}
    (v : α) (h : mapGet m k = none) :
    (mapSet m k v).map Prod.fst = m.map Prod.fst ++ [k] := by
  induction m with
  | nil => simp [mapSet]
  | cons hd tl ih =>
    obtain ⟨k', v'⟩ := hd
    by_cases hk : k' = k
    · subst hk
      simp [mapGet] at h
    · simp only [mapGet, if_neg hk] at h
      simp [mapSet, if_neg hk, ih h]

/-- Deleting a present key shortens the list by exactly one entry. -/
theorem mapDelete_length {α : Type} {m : List (String × α)} {k : String}
    {v : α} (h : mapGet m k = some v) :
    m.length = (mapDelete m k).length + 1 := by
  induction m with
  | nil => simp [mapGet] at h
  | cons hd tl ih =>
    obtain ⟨k', v'⟩ := hd
    by_cases hk : k' = k
    · simp [mapDelete, if_pos hk]
    · simp only [mapGet, if_neg hk] at h
      simp [mapDelete, if_neg hk, ih h]

/-- `mapDelete` produces a sublist. -/
theorem mapDelete_sublist {α : Type} (m : List (String × α)) (k : String) :
    (mapDelete m k).Sublist m := by
  induction m with
  | nil => simp [mapDelete]
  | cons hd tl ih =>
    obtain ⟨k', v'⟩ := hd
    by_cases hk : k' = k
    · have hd : mapDelete ((k', v') :: tl) k = tl := by simp [mapDelete, hk]
      rw [hd]
      exact List.sublist_cons_self _ _
    · have hd : mapDelete ((k', v') :: tl) k = (k', v') :: mapDelete tl k := by
        simp [mapDelete, hk]
      rw [hd]
      exact List.Sublist.cons₂ _ ih

/-- The newBlock per-transaction loop emits no `txDone` call. -/
theorem settleTxs_done_count (p : Provider) (b : String) (body : List String)
    (reg : List (String × List String)) (tx : String) :
    txDoneCount tx (settleTxs p b body reg).2 = 0 := by
  induction reg with
  | nil => simp [settleTxs, txDoneCount]
  | cons hd tl ih =>
    obtain ⟨k, v⟩ := hd
    by_cases hb : k ∈ body
    · simp [settleTxs, if_pos hb, txDoneCount, List.countP_cons] at ih ⊢
      exact ih
    · by_cases hv : p.isTxValid b k
      · simp [settleTxs, if_neg hb, hv, txDoneCount, List.countP_cons] at ih ⊢
        exact ih
      · simp [settleTxs, if_neg hb, hv, txDoneCount, List.countP_cons] at ih ⊢
        exact ih

/-- The newBlock per-transaction loop emits no `unpin` call. -/
theorem settleTxs_no_unpin (p : Provider) (b : String) (body : List String)
    (reg : List (String × List String)) :
    unpinArgs (settleTxs p b body reg).2 = [] := by
  induction reg with
  | nil => simp [settleTxs, unpinArgs]
  | cons hd tl ih =>
    obtain ⟨k, v⟩ := hd
    by_cases hb : k ∈ body
    · simp [settleTxs, if_pos hb, unpinArgs] at ih ⊢
      exact ih
    · by_cases hv : p.isTxValid b k
      · simp [settleTxs, if_neg hb, hv, unpinArgs] at ih ⊢
        exact ih
      · simp [settleTxs, if_neg hb, hv, unpinArgs] at ih ⊢
        exact ih

/-- Effect of the newBlock loop on a registry entry: unchanged if the
transaction is in the body or still valid, and extended by the block hash if
the validity oracle rejected it. -/
theorem settleTxs_mapGet (p : Provider) (b : String) (body : List String)
    (reg : List (String × List String)) (tx : String) :
    mapGet (settleTxs p b body reg).1 tx =
      (mapGet reg tx).map fun inv =>
        if tx ∈ body then inv
        else if p.isTxValid b tx then inv else setAdd inv b := by
  induction reg with
  | nil => simp [settleTxs, mapGet]
  | cons hd tl ih =>
    obtain ⟨k, v⟩ := hd
    by_cases hk : k = tx
    · subst hk
      by_cases hb : k ∈ body
      · simp [settleTxs, if_pos hb, mapGet]
      · by_cases hv : p.isTxValid b k
        · simp [settleTxs, if_neg hb, hv, mapGet]
        · simp [settleTxs, if_neg hb, hv, mapGet]
    · by_cases hb : k ∈ body
      · simp [settleTxs, if_pos hb, mapGet, hk, ih]
      · by_cases hv : p.isTxValid b k
        · simp [settleTxs, if_neg hb, hv, mapGet, hk, ih]
        · simp [settleTxs, if_neg hb, hv, mapGet, hk, ih]

/-- The newBlock loop preserves the registry's key sequence. -/
theorem settleTxs_keys (p : Provider) (b : String) (body : List String)
    (reg : List (String × List String)) :
    (settleTxs p b body reg).1.map Prod.fst = reg.map Prod.fst := by
  induction reg with
  | nil => simp [settleTxs]
  | cons hd tl ih =>
    obtain ⟨k, v⟩ := hd
    by_cases hb : k ∈ body
    · simp [settleTxs, if_pos hb, ih]
    · by_cases hv : p.isTxValid b k
      · simp [settleTxs, if_neg hb, hv, ih]
      · simp [settleTxs, if_neg hb, hv, ih]

/-- Shape of the newBlock loop on a registry entry included in the body. -/
theorem settleTxs_cons_body (p : Provider) (b : String) (body : List String)
    (k : String) (v : List String) (tl : List (String × List String))
    (hb : k ∈ body) :
    settleTxs p b body ((k, v) :: tl) =
      ((k, v) :: (settleTxs p b body tl).1,
        Call.isTxSuccessful b k ::
          Call.txSettled k (TxOutcome.valid b (p.isTxSuccessful b k)) ::
          (settleTxs p b body tl).2) := by
  simp [settleTxs, if_pos hb]

/-- Shape of the newBlock loop on an entry out of the body and still valid. -/
theorem settleTxs_cons_valid (p : Provider) (b : String) (body : List String)
    (k : String) (v : List String) (tl : List (String × List String))
    (hnb : k ∉ body) (hv : p.isTxValid b k = true) :
    settleTxs p b body ((k, v) :: tl) =
      ((k, v) :: (settleTxs p b body tl).1,
        Call.isTxValid b k :: (settleTxs p b body tl).2) := by
  simp [settleTxs, if_neg hnb, hv]

/-- Shape of the newBlock loop on an entry out of the body and rejected by
the validity oracle. -/
theorem settleTxs_cons_invalid (p : Provider) (b : String) (body : List String)
    (k : String) (v : List String) (tl : List (String × List String))
    (hnb : k ∉ body) (hv : p.isTxValid b k = false) :
    settleTxs p b body ((k, v) :: tl) =
      ((k, setAdd v b) :: (settleTxs p b body tl).1,
        Call.isTxValid b k :: Call.txSettled k (TxOutcome.invalid b) ::
          (settleTxs p b body tl).2) := by
  simp [settleTxs, if_neg hnb, hv]

/-- An unregistered transaction receives no settled call from the loop. -/
theorem settleTxs_settled_count_none (p : Provider) (b : String)
    (body : List String) (reg : List (String × List String)) (tx : String)
    (h : mapGet reg tx = none) :
    txSettledCount tx (settleTxs p b body reg).2 = 0 := by
  induction reg with
  | nil => simp [settleTxs, txSettledCount]
  | cons hd tl ih =>
    obtain ⟨k, v⟩ := hd
    by_cases hk : k = tx
    · simp [mapGet, hk] at h
    · simp only [mapGet, if_neg hk] at h
      have h0 := ih h
      by_cases hb : k ∈ body
      · rw [settleTxs_cons_body p b body k v tl hb]
        simp [txSettledCount, List.countP_cons, hk, -List.countP_eq_zero]
          at h0 ⊢
        exact h0
      · by_cases hv : p.isTxValid b k
        · rw [settleTxs_cons_valid p b body k v tl hb hv]
          simp [txSettledCount, List.countP_cons, hk, -List.countP_eq_zero]
            at h0 ⊢
          exact h0
        · rw [settleTxs_cons_invalid p b body k v tl hb
            (Bool.eq_false_iff.mpr hv)]
          simp [txSettledCount, List.countP_cons, hk, -List.countP_eq_zero]
            at h0 ⊢
          exact h0

/-- An unregistered transaction triggers no `isTxSuccessful` query. -/
theorem settleTxs_succ_count_none (p : Provider) (b : String)
    (body : List String) (reg : List (String × List String)) (tx : String)
    (h : mapGet reg tx = none) :
    succQueryCount b tx (settleTxs p b body reg).2 = 0 := by
  induction reg with
  | nil => simp [settleTxs, succQueryCount]
  | cons hd tl ih =>
    obtain ⟨k, v⟩ := hd
    by_cases hk : k = tx
    · simp [mapGet, hk] at h
    · simp only [mapGet, if_neg hk] at h
      have h0 := ih h
      by_cases hb : k ∈ body
      · rw [settleTxs_cons_body p b body k v tl hb]
        simp [succQueryCount, List.countP_cons, hk, -List.countP_eq_zero]
          at h0 ⊢
        exact h0
      · by_cases hv : p.isTxValid b k
        · rw [settleTxs_cons_valid p b body k v tl hb hv]
          simp [succQueryCount, List.countP_cons, hk, -List.countP_eq_zero]
            at h0 ⊢
          exact h0
        · rw [settleTxs_cons_invalid p b body k v tl hb
            (Bool.eq_false_iff.mpr hv)]
          simp [succQueryCount, List.countP_cons, hk, -List.countP_eq_zero]
            at h0 ⊢
          exact h0

/-- With unique registry keys, the settled-call count of a registered
transaction in one newBlock loop is 1 if it is in the body, 0 if it is out
of the body but still valid, and 1 if the validity oracle rejected it. -/
theorem settleTxs_settled_count (p : Provider) (b : String)
    (body : List String) (reg : List (String × List String)) (tx : String)
    (inv : List String) (hnd : (reg.map Prod.fst).Nodup)
    (hget : mapGet reg tx = some inv) :
    txSettledCount tx (settleTxs p b body reg).2 =
      if tx ∈ body then 1 else if p.isTxValid b tx then 0 else 1 := by
  induction reg with
  | nil => simp [mapGet] at hget
  | cons hd tl ih =>
    obtain ⟨k, v⟩ := hd
    simp only [List.map_cons, List.nodup_cons] at hnd
    by_cases hk : k = tx
    · subst hk
      have htl : mapGet tl k = none := (mapGet_eq_none tl k).mpr hnd.1
      have h0 := settleTxs_settled_count_none p b body tl k htl
      by_cases hb : k ∈ body
      · rw [settleTxs_cons_body p b body k v tl hb]
        simp [txSettledCount, List.countP_cons, hb, -List.countP_eq_zero]
          at h0 ⊢
        simp [h0]
      · by_cases hv : p.isTxValid b k
        · rw [settleTxs_cons_valid p b body k v tl hb hv]
          simp [txSettledCount, List.countP_cons, hb, hv,
            -List.countP_eq_zero] at h0 ⊢
          exact h0
        · rw [settleTxs_cons_invalid p b body k v tl hb
            (Bool.eq_false_iff.mpr hv)]
          simp [txSettledCount, List.countP_cons, hb, hv,
            -List.countP_eq_zero] at h0 ⊢
          simp [h0]
    · simp only [mapGet, if_neg hk] at hget
      have h0 := ih hnd.2 hget
      by_cases hb : k ∈ body
      · rw [settleTxs_cons_body p b body k v tl hb]
        simp [txSettledCount, List.countP_cons, hk, -List.countP_eq_zero]
          at h0 ⊢
        exact h0
      · by_cases hv : p.isTxValid b k
        · rw [settleTxs_cons_valid p b body k v tl hb hv]
          simp [txSettledCount, List.countP_cons, hk, -List.countP_eq_zero]
            at h0 ⊢
          exact h0
        · rw [settleTxs_cons_invalid p b body k v tl hb
            (Bool.eq_false_iff.mpr hv)]
          simp [txSettledCount, List.countP_cons, hk, -List.countP_eq_zero]
            at h0 ⊢
          exact h0

/-- With unique registry keys, the success oracle is queried exactly once
for a registered transaction in the body, and never otherwise. -/
theorem settleTxs_succ_count (p : Provider) (b : String) (body : List String)
    (reg : List (String × List String)) (tx : String) (inv : List String)
    (hnd : (reg.map Prod.fst).Nodup) (hget : mapGet reg tx = some inv) :
    succQueryCount b tx (settleTxs p b body reg).2 =
      if tx ∈ body then 1 else 0 := by
  induction reg with
  | nil => simp [mapGet] at hget
  | cons hd tl ih =>
    obtain ⟨k, v⟩ := hd
    simp only [List.map_cons, List.nodup_cons] at hnd
    by_cases hk : k = tx
    · subst hk
      have htl : mapGet tl k = none := (mapGet_eq_none tl k).mpr hnd.1
      have h0 := settleTxs_succ_count_none p b body tl k htl
      by_cases hb : k ∈ body
      · rw [settleTxs_cons_body p b body k v tl hb]
        simp [succQueryCount, List.countP_cons, hb, -List.countP_eq_zero]
          at h0 ⊢
        simp [h0]
      · by_cases hv : p.isTxValid b k
        · rw [settleTxs_cons_valid p b body k v tl hb hv]
          simp [succQueryCount, List.countP_cons, hb, -List.countP_eq_zero]
            at h0 ⊢
          exact h0
        · rw [settleTxs_cons_invalid p b body k v tl hb
            (Bool.eq_false_iff.mpr hv)]
          simp [succQueryCount, List.countP_cons, hb, -List.countP_eq_zero]
            at h0 ⊢
          exact h0
    · simp only [mapGet, if_neg hk] at hget
      have h0 := ih hnd.2 hget
      by_cases hb : k ∈ body
      · rw [settleTxs_cons_body p b body k v tl hb]
        simp [succQueryCount, List.countP_cons, hk, -List.countP_eq_zero]
          at h0 ⊢
        exact h0
      · by_cases hv : p.isTxValid b k
        · rw [settleTxs_cons_valid p b body k v tl hb hv]
          simp [succQueryCount, List.countP_cons, hk, -List.countP_eq_zero]
            at h0 ⊢
          exact h0
        · rw [settleTxs_cons_invalid p b body k v tl hb
            (Bool.eq_false_iff.mpr hv)]
          simp [succQueryCount, List.countP_cons, hk, -List.countP_eq_zero]
            at h0 ⊢
          exact h0

/-- A registered transaction in the body receives the valid settled call,
with the success flag as reported by the provider. -/
theorem settleTxs_settled_mem_valid (p : Provider) (b : String)
    (body : List String) (reg : List (String × List String)) (tx : String)
    (inv : List String) (hget : mapGet reg tx = some inv) (hb : tx ∈ body) :
    Call.txSettled tx (TxOutcome.valid b (p.isTxSuccessful b tx)) ∈
      (settleTxs p b body reg).2 := by
  induction reg with
  | nil => simp [mapGet] at hget
  | cons hd tl ih =>
    obtain ⟨k, v⟩ := hd
    by_cases hk : k = tx
    · subst hk
      rw [settleTxs_cons_body p b body k v tl hb]
      exact List.mem_cons_of_mem _ (List.mem_cons_self _ _)
    · simp only [mapGet, if_neg hk] at hget
      by_cases hbk : k ∈ body
      · rw [settleTxs_cons_body p b body k v tl hbk]
        exact List.mem_cons_of_mem _ (List.mem_cons_of_mem _ (ih hget))
      · by_cases hv : p.isTxValid b k
        · rw [settleTxs_cons_valid p b body k v tl hbk hv]
          exact List.mem_cons_of_mem _ (ih hget)
        · rw [settleTxs_cons_invalid p b body k v tl hbk
            (Bool.eq_false_iff.mpr hv)]
          exact List.mem_cons_of_mem _ (List.mem_cons_of_mem _ (ih hget))

/-- A registered transaction out of the body and rejected by the validity
oracle receives the invalid settled call. -/
theorem settleTxs_settled_mem_invalid (p : Provider) (b : String)
    (body : List String) (reg : List (String × List String)) (tx : String)
    (inv : List String) (hget : mapGet reg tx = some inv) (hnb : tx ∉ body)
    (hv : p.isTxValid b tx = false) :
    Call.txSettled tx (TxOutcome.invalid b) ∈ (settleTxs p b body reg).2 := by
  induction reg with
  | nil => simp [mapGet] at hget
  | cons hd tl ih =>
    obtain ⟨k, v⟩ := hd
    by_cases hk : k = tx
    · subst hk
      rw [settleTxs_cons_invalid p b body k v tl hnb hv]
      exact List.mem_cons_of_mem _ (List.mem_cons_self _ _)
    · simp only [mapGet, if_neg hk] at hget
      by_cases hbk : k ∈ body
      · rw [settleTxs_cons_body p b body k v tl hbk]
        exact List.mem_cons_of_mem _ (List.mem_cons_of_mem _ (ih hget))
      · by_cases hvk : p.isTxValid b k
        · rw [settleTxs_cons_valid p b body k v tl hbk hvk]
          exact List.mem_cons_of_mem _ (ih hget)
        · rw [settleTxs_cons_invalid p b body k v tl hbk
            (Bool.eq_false_iff.mpr hvk)]
          exact List.mem_cons_of_mem _ (List.mem_cons_of_mem _ (ih hget))

/-- Shape of the finalization loop body on a registry entry included in the
visited block's body: valid done call, entry removed. -/
theorem finalizeTxs_cons_body (p : Provider) (terminal current : String)
    (body : List String) (k : String) (v : List String)
    (tl : List (String × List String)) (hb : k ∈ body) :
    finalizeTxs p terminal current body ((k, v) :: tl) =
      ((finalizeTxs p terminal current body tl).1,
        Call.isTxSuccessful current k ::
          Call.txDone k
            (TxOutcome.valid current (p.isTxSuccessful current k)) ::
          (finalizeTxs p terminal current body tl).2) := by
  simp [finalizeTxs, if_pos hb]

/-- Shape of the finalization loop body on an entry out of the body whose
invalidity set contains the terminal block: invalid done call, entry kept. -/
theorem finalizeTxs_cons_invalid (p : Provider) (terminal current : String)
    (body : List String) (k : String) (v : List String)
    (tl : List (String × List String)) (hnb : k ∉ body) (ht : terminal ∈ v) :
    finalizeTxs p terminal current body ((k, v) :: tl) =
      ((k, v) :: (finalizeTxs p terminal current body tl).1,
        Call.txDone k (TxOutcome.invalid current) ::
          (finalizeTxs p terminal current body tl).2) := by
  simp [finalizeTxs, if_neg hnb, ht]

/-- Shape of the finalization loop body on an entry out of the body whose
invalidity set lacks the terminal block: no call, entry kept. -/
theorem finalizeTxs_cons_skip (p : Provider) (terminal current : String)
    (body : List String) (k : String) (v : List String)
    (tl : List (String × List String)) (hnb : k ∉ body) (ht : terminal ∉ v) :
    finalizeTxs p terminal current body ((k, v) :: tl) =
      ((k, v) :: (finalizeTxs p terminal current body tl).1,
        (finalizeTxs p terminal current body tl).2) := by
  simp [finalizeTxs, if_neg hnb, ht]

/-- The registry surviving one finalization visit is a sublist of the
registry before it (entries are only ever removed, never changed). -/
theorem finalizeTxs_sublist (p : Provider) (terminal current : String)
    (body : List String) (reg : List (String × List String)) :
    (finalizeTxs p terminal current body reg).1.Sublist reg := by
  induction reg with
  | nil => simp [finalizeTxs]
  | cons hd tl ih =>
    obtain ⟨k, v⟩ := hd
    by_cases hb : k ∈ body
    · rw [finalizeTxs_cons_body p terminal current body k v tl hb]
      exact List.Sublist.trans ih (List.sublist_cons_self _ _)
    · by_cases ht : terminal ∈ v
      · rw [finalizeTxs_cons_invalid p terminal current body k v tl hb ht]
        exact List.Sublist.cons₂ _ ih
      · rw [finalizeTxs_cons_skip p terminal current body k v tl hb ht]
        exact List.Sublist.cons₂ _ ih

/-- A transaction absent from the registry stays absent after a visit. -/
theorem finalizeTxs_mapGet_none (p : Provider) (terminal current : String)
    (body : List String) (reg : List (String × List String)) (tx : String)
    (h : mapGet reg tx = none) :
    mapGet (finalizeTxs p terminal current body reg).1 tx = none := by
  rw [mapGet_eq_none] at h ⊢
  intro hmem
  exact h
    (((finalizeTxs_sublist p terminal current body reg).map Prod.fst).subset
      hmem)

/-- A transaction included in the visited body is absent from the surviving
registry: the valid done path removes it. -/
theorem finalizeTxs_mapGet_none_of_mem_body (p : Provider)
    (terminal current : String) (body : List String)
    (reg : List (String × List String)) (tx : String) (hb : tx ∈ body) :
    mapGet (finalizeTxs p terminal current body reg).1 tx = none := by
  induction reg with
  | nil => simp [finalizeTxs, mapGet]
  | cons hd tl ih =>
    obtain ⟨k, v⟩ := hd
    by_cases hbk : k ∈ body
    · rw [finalizeTxs_cons_body p terminal current body k v tl hbk]
      exact ih
    · have hk : k ≠ tx := fun he => hbk (he ▸ hb)
      by_cases ht : terminal ∈ v
      · rw [finalizeTxs_cons_invalid p terminal current body k v tl hbk ht]
        simp only [mapGet, if_neg hk]
        exact ih
      · rw [finalizeTxs_cons_skip p terminal current body k v tl hbk ht]
        simp only [mapGet, if_neg hk]
        exact ih

/-- A registered transaction out of the visited body whose invalidity set
contains the terminal block receives the invalid done call at the visited
block. -/
theorem finalizeTxs_done_invalid_mem (p : Provider) (terminal current : String)
    (body : List String) (reg : List (String × List String)) (tx : String)
    (inv : List String) (hget : mapGet reg tx = some inv) (hnb : tx ∉ body)
    (ht : terminal ∈ inv) :
    Call.txDone tx (TxOutcome.invalid current) ∈
      (finalizeTxs p terminal current body reg).2 := by
  induction reg with
  | nil => simp [mapGet] at hget
  | cons hd tl ih =>
    obtain ⟨k, v⟩ := hd
    by_cases hk : k = tx
    · subst hk
      simp [mapGet] at hget
      subst hget
      rw [finalizeTxs_cons_invalid p terminal current body k v tl hnb ht]
      exact List.mem_cons_self _ _
    · simp only [mapGet, if_neg hk] at hget
      by_cases hbk : k ∈ body
      · rw [finalizeTxs_cons_body p terminal current body k v tl hbk]
        exact List.mem_cons_of_mem _ (List.mem_cons_of_mem _ (ih hget))
      · by_cases htk : terminal ∈ v
        · rw [finalizeTxs_cons_invalid p terminal current body k v tl hbk htk]
          exact List.mem_cons_of_mem _ (ih hget)
        · rw [finalizeTxs_cons_skip p terminal current body k v tl hbk htk]
          exact ih hget

/-- An unregistered transaction receives no done call from a visit. -/
theorem finalizeTxs_no_done_of_none (p : Provider) (terminal current : String)
    (body : List String) (reg : List (String × List String)) (tx : String)
    (o : TxOutcome) (h : mapGet reg tx = none) :
    Call.txDone tx o ∉ (finalizeTxs p terminal current body reg).2 := by
  induction reg with
  | nil => simp [finalizeTxs]
  | cons hd tl ih =>
    obtain ⟨k, v⟩ := hd
    by_cases hk : k = tx
    · simp [mapGet, hk] at h
    · simp only [mapGet, if_neg hk] at h
      by_cases hbk : k ∈ body
      · rw [finalizeTxs_cons_body p terminal current body k v tl hbk]
        intro hmem
        rcases List.mem_cons.mp hmem with h1 | hmem'
        · exact Call.noConfusion h1
        · rcases List.mem_cons.mp hmem' with h2 | hmem''
          · injection h2 with he _
            exact hk he.symm
          · exact ih h hmem''
      · by_cases htk : terminal ∈ v
        · rw [finalizeTxs_cons_invalid p terminal current body k v tl hbk htk]
          intro hmem
          rcases List.mem_cons.mp hmem with h1 | hmem'
          · injection h1 with he _
            exact hk he.symm
          · exact ih h hmem'
        · rw [finalizeTxs_cons_skip p terminal current body k v tl hbk htk]
          exact ih h

/-- With unique registry keys, a registered transaction out of the visited
body receives the invalid done call exactly when its invalidity set contains
the terminal finalized block of the walk: invalidity recorded only at other
blocks, including the visited block itself, does not trigger it. -/
theorem finalizeTxs_done_invalid_iff (p : Provider) (terminal current : String)
    (body : List String) (reg : List (String × List String)) (tx : String)
    (inv : List String) (hnd : (reg.map Prod.fst).Nodup)
    (hget : mapGet reg tx = some inv) (hnb : tx ∉ body) :
    Call.txDone tx (TxOutcome.invalid current) ∈
        (finalizeTxs p terminal current body reg).2 ↔
      terminal ∈ inv := by
  induction reg with
  | nil => simp [mapGet] at hget
  | cons hd tl ih =>
    obtain ⟨k, v⟩ := hd
    simp only [List.map_cons, List.nodup_cons] at hnd
    by_cases hk : k = tx
    · subst hk
      simp [mapGet] at hget
      subst hget
      have htl : mapGet tl k = none := (mapGet_eq_none tl k).mpr hnd.1
      have hno := finalizeTxs_no_done_of_none p terminal current body tl k
        (TxOutcome.invalid current) htl
      by_cases ht : terminal ∈ v
      · rw [finalizeTxs_cons_invalid p terminal current body k v tl hnb ht]
        simp [ht]
      · rw [finalizeTxs_cons_skip p terminal current body k v tl hnb ht]
        simp [ht, hno]
    · simp only [mapGet, if_neg hk] at hget
      have hrec := ih hnd.2 hget
      by_cases hbk : k ∈ body
      · rw [finalizeTxs_cons_body p terminal current body k v tl hbk]
        rw [← hrec]
        constructor
        · intro hmem
          rcases List.mem_cons.mp hmem with h1 | hmem'
          · exact absurd h1 (fun h1 => Call.noConfusion h1)
          · rcases List.mem_cons.mp hmem' with h2 | hmem''
            · injection h2 with he _
              exact absurd he.symm hk
            · exact hmem''
        · intro hmem
          exact List.mem_cons_of_mem _ (List.mem_cons_of_mem _ hmem)
      · by_cases htk : terminal ∈ v
        · rw [finalizeTxs_cons_invalid p terminal current body k v tl hbk htk]
          rw [← hrec]
          constructor
          · intro hmem
            rcases List.mem_cons.mp hmem with h1 | hmem'
            · injection h1 with he _
              exact absurd he.symm hk
            · exact hmem'
          · intro hmem
            exact List.mem_cons_of_mem _ hmem
        · rw [finalizeTxs_cons_skip p terminal current body k v tl hbk htk]
          exact hrec

/-- The finalization loop body never queries the validity oracle. -/
theorem finalizeTxs_no_isTxValid (p : Provider) (terminal current : String)
    (body : List String) (reg : List (String × List String)) (b t : String) :
    Call.isTxValid b t ∉ (finalizeTxs p terminal current body reg).2 := by
  induction reg with
  | nil => simp [finalizeTxs]
  | cons hd tl ih =>
    obtain ⟨k, v⟩ := hd
    by_cases hbk : k ∈ body
    · rw [finalizeTxs_cons_body p terminal current body k v tl hbk]
      intro hmem
      rcases List.mem_cons.mp hmem with h1 | hmem'
      · exact Call.noConfusion h1
      · rcases List.mem_cons.mp hmem' with h2 | hmem''
        · exact Call.noConfusion h2
        · exact ih hmem''
    · by_cases htk : terminal ∈ v
      · rw [finalizeTxs_cons_invalid p terminal current body k v tl hbk htk]
        intro hmem
        rcases List.mem_cons.mp hmem with h1 | hmem'
        · exact Call.noConfusion h1
        · exact ih hmem'
      · rw [finalizeTxs_cons_skip p terminal current body k v tl hbk htk]
        exact ih

/-- The finalization loop body emits no unpin call. -/
theorem finalizeTxs_no_unpin (p : Provider) (terminal current : String)
    (body : List String) (reg : List (String × List String)) :
    unpinArgs (finalizeTxs p terminal current body reg).2 = [] := by
  induction reg with
  | nil => simp [finalizeTxs, unpinArgs]
  | cons hd tl ih =>
    obtain ⟨k, v⟩ := hd
    by_cases hbk : k ∈ body
    · rw [finalizeTxs_cons_body p terminal current body k v tl hbk]
      simpa [unpinArgs] using ih
    · by_cases htk : terminal ∈ v
      · rw [finalizeTxs_cons_invalid p terminal current body k v tl hbk htk]
        simpa [unpinArgs] using ih
      · rw [finalizeTxs_cons_skip p terminal current body k v tl hbk htk]
        exact ih

/-- A success query emitted by a visit names the visited block and a
transaction of its body. -/
theorem finalizeTxs_succ_mem (p : Provider) (terminal current : String)
    (body : List String) (reg : List (String × List String)) (b t : String)
    (h : Call.isTxSuccessful b t ∈ (finalizeTxs p terminal current body reg).2) :
    b = current ∧ t ∈ body := by
  induction reg with
  | nil => simp [finalizeTxs] at h
  | cons hd tl ih =>
    obtain ⟨k, v⟩ := hd
    by_cases hbk : k ∈ body
    · rw [finalizeTxs_cons_body p terminal current body k v tl hbk] at h
      rcases List.mem_cons.mp h with h1 | hmem'
      · injection h1 with hb ht
        subst hb
        subst ht
        exact ⟨rfl, hbk⟩
      · rcases List.mem_cons.mp hmem' with h2 | hmem''
        · exact Call.noConfusion h2
        · exact ih hmem''
    · by_cases htk : terminal ∈ v
      · rw [finalizeTxs_cons_invalid p terminal current body k v tl hbk htk]
          at h
        rcases List.mem_cons.mp h with h1 | hmem'
        · exact Call.noConfusion h1
        · exact ih hmem'
      · rw [finalizeTxs_cons_skip p terminal current body k v tl hbk htk] at h
        exact ih h

/-- A registered transaction included in the visited block's body gets, in
one contiguous step of the visit's trace, the success query immediately
followed by the valid done call; its entry does not survive the visit. -/
theorem finalizeTxs_done_valid_decomp (p : Provider) (terminal current : String)
    (body : List String) (reg : List (String × List String)) (tx : String)
    (inv : List String) (hmem : (tx, inv) ∈ reg) (hb : tx ∈ body) :
    ∃ pre post,
      (finalizeTxs p terminal current body reg).2 =
        pre ++ Call.isTxSuccessful current tx ::
          Call.txDone tx
            (TxOutcome.valid current (p.isTxSuccessful current tx)) :: post := by
  induction reg with
  | nil => simp at hmem
  | cons hd tl ih =>
    obtain ⟨k, v⟩ := hd
    rcases List.mem_cons.mp hmem with hhd | htl
    · injection hhd with hk hv
      subst hk
      rw [finalizeTxs_cons_body p terminal current body tx v tl hb]
      exact ⟨[], (finalizeTxs p terminal current body tl).2, rfl⟩
    · by_cases hbk : k ∈ body
      · rw [finalizeTxs_cons_body p terminal current body k v tl hbk]
        obtain ⟨pre, post, hp⟩ := ih htl
        exact ⟨Call.isTxSuccessful current k ::
          Call.txDone k
            (TxOutcome.valid current (p.isTxSuccessful current k)) :: pre,
          post, by simp [hp]⟩
      · by_cases htk : terminal ∈ v
        · rw [finalizeTxs_cons_invalid p terminal current body k v tl hbk htk]
          obtain ⟨pre, post, hp⟩ := ih htl
          exact ⟨Call.txDone k (TxOutcome.invalid current) :: pre, post,
            by simp [hp]⟩
        · rw [finalizeTxs_cons_skip p terminal current body k v tl hbk htk]
          exact ih htl

/-- The loop with no fuel (never reached from the handler). -/
theorem finalizeLoop_zero (p : Provider) (t c : String)
    (bl : List (String × String)) (reg : List (String × List String))
    (cur : String) : finalizeLoop p t c 0 bl reg cur = ⟨bl, reg, [], []⟩ := rfl

/-- One iteration on a block absent from the index: process it, push it, and
stop. -/
theorem finalizeLoop_succ_absent (p : Provider) (t c : String) (n : Nat)
    (bl : List (String × String)) (reg : List (String × List String))
    (cur : String) (h : mapGet bl cur = none) :
    finalizeLoop p t c (n + 1) bl reg cur =
      ⟨bl, (finalizeTxs p t cur (p.getBody cur) reg).1, [cur],
        Call.getBody cur :: (finalizeTxs p t cur (p.getBody cur) reg).2⟩ := by
  simp [finalizeLoop, h]

/-- One iteration on an indexed block whose parent is empty or equals the
cursor: process it, delete it from the index, push it, and stop. -/
theorem finalizeLoop_succ_stop (p : Provider) (t c : String) (n : Nat)
    (bl : List (String × String)) (reg : List (String × List String))
    (cur par : String) (h : mapGet bl cur = some par)
    (hor : par = "" ∨ par = c) :
    finalizeLoop p t c (n + 1) bl reg cur =
      ⟨mapDelete bl cur, (finalizeTxs p t cur (p.getBody cur) reg).1, [cur],
        Call.getBody cur :: (finalizeTxs p t cur (p.getBody cur) reg).2⟩ := by
  rcases hor with h1 | h2
  · simp [finalizeLoop, h, h1]
  · by_cases h1 : par = ""
    · simp [finalizeLoop, h, h1]
    · simp [finalizeLoop, h, h1, h2]

/-- One iteration on an indexed block whose parent continues the walk. -/
theorem finalizeLoop_succ_go (p : Provider) (t c : String) (n : Nat)
    (bl : List (String × String)) (reg : List (String × List String))
    (cur par : String) (h : mapGet bl cur = some par) (h1 : par ≠ "")
    (h2 : par ≠ c) :
    finalizeLoop p t c (n + 1) bl reg cur =
      ⟨(finalizeLoop p t c n (mapDelete bl cur)
          (finalizeTxs p t cur (p.getBody cur) reg).1 par).blocks,
        (finalizeLoop p t c n (mapDelete bl cur)
          (finalizeTxs p t cur (p.getBody cur) reg).1 par).registry,
        cur :: (finalizeLoop p t c n (mapDelete bl cur)
          (finalizeTxs p t cur (p.getBody cur) reg).1 par).visited,
        (Call.getBody cur :: (finalizeTxs p t cur (p.getBody cur) reg).2) ++
          (finalizeLoop p t c n (mapDelete bl cur)
            (finalizeTxs p t cur (p.getBody cur) reg).1 par).calls⟩ := by
  simp [finalizeLoop, h, h1, h2]

/-- The pure walk with no fuel. -/
theorem walkBlocks_zero (c : String) (bl : List (String × String))
    (cur : String) : walkBlocks c 0 bl cur = [] := rfl

/-- The pure walk stops after a block absent from the index. -/
theorem walkBlocks_succ_absent (c : String) (n : Nat)
    (bl : List (String × String)) (cur : String) (h : mapGet bl cur = none) :
    walkBlocks c (n + 1) bl cur = [cur] := by
  simp [walkBlocks, h]

/-- The pure walk stops after a block whose parent is empty or the cursor. -/
theorem walkBlocks_succ_stop (c : String) (n : Nat)
    (bl : List (String × String)) (cur par : String)
    (h : mapGet bl cur = some par) (hor : par = "" ∨ par = c) :
    walkBlocks c (n + 1) bl cur = [cur] := by
  rcases hor with h1 | h2
  · simp [walkBlocks, h, h1]
  · by_cases h1 : par = ""
    · simp [walkBlocks, h, h1]
    · simp [walkBlocks, h, h1, h2]

/-- The pure walk continues at the parent. -/
theorem walkBlocks_succ_go (c : String) (n : Nat)
    (bl : List (String × String)) (cur par : String)
    (h : mapGet bl cur = some par) (h1 : par ≠ "") (h2 : par ≠ c) :
    walkBlocks c (n + 1) bl cur =
      cur :: walkBlocks c n (mapDelete bl cur) par := by
  simp [walkBlocks, h, h1, h2]

/-- The blocks visited by the finalization loop are exactly the pure chain
walk over the pre-state block index: the registry processing does not
influence which blocks are walked. -/
theorem finalizeLoop_visited_eq_walk (p : Provider) (t c : String) :
    ∀ (n : Nat) (bl : List (String × String))
      (reg : List (String × List String)) (cur : String),
      (finalizeLoop p t c n bl reg cur).visited = walkBlocks c n bl cur := by
  intro n
  induction n with
  | zero =>
    intro bl reg cur
    rfl
  | succ n ih =>
    intro bl reg cur
    cases hg : mapGet bl cur with
    | none => rw [finalizeLoop_succ_absent p t c n bl reg cur hg,
        walkBlocks_succ_absent c n bl cur hg]
    | some par =>
      by_cases h1 : par = ""
      · rw [finalizeLoop_succ_stop p t c n bl reg cur par hg (Or.inl h1),
          walkBlocks_succ_stop c n bl cur par hg (Or.inl h1)]
      · by_cases h2 : par = c
        · rw [finalizeLoop_succ_stop p t c n bl reg cur par hg (Or.inr h2),
            walkBlocks_succ_stop c n bl cur par hg (Or.inr h2)]
        · rw [finalizeLoop_succ_go p t c n bl reg cur par hg h1 h2,
            walkBlocks_succ_go c n bl cur par hg h1 h2]
          simp [ih]

/-- The finalization loop itself emits no unpin call. -/
theorem finalizeLoop_no_unpin (p : Provider) (t c : String) :
    ∀ (n : Nat) (bl : List (String × String))
      (reg : List (String × List String)) (cur : String),
      unpinArgs (finalizeLoop p t c n bl reg cur).calls = [] := by
  intro n
  induction n with
  | zero =>
    intro bl reg cur
    rfl
  | succ n ih =>
    intro bl reg cur
    cases hg : mapGet bl cur with
    | none =>
      rw [finalizeLoop_succ_absent p t c n bl reg cur hg]
      simpa [unpinArgs] using finalizeTxs_no_unpin p t cur (p.getBody cur) reg
    | some par =>
      by_cases h1 : par = ""
      · rw [finalizeLoop_succ_stop p t c n bl reg cur par hg (Or.inl h1)]
        simpa [unpinArgs] using finalizeTxs_no_unpin p t cur (p.getBody cur) reg
      · by_cases h2 : par = c
        · rw [finalizeLoop_succ_stop p t c n bl reg cur par hg (Or.inr h2)]
          simpa [unpinArgs] using
            finalizeTxs_no_unpin p t cur (p.getBody cur) reg
        · rw [finalizeLoop_succ_go p t c n bl reg cur par hg h1 h2]
          have ha := finalizeTxs_no_unpin p t cur (p.getBody cur) reg
          simp only [unpinArgs, List.filterMap_append, List.filterMap_cons]
            at ha ⊢
          simp [ha, unpinArgs] at ih ⊢
          exact ih _ _ _

/-- The finalization loop never queries the validity oracle. -/
theorem finalizeLoop_no_isTxValid (p : Provider) (t c b tr : String) :
    ∀ (n : Nat) (bl : List (String × String))
      (reg : List (String × List String)) (cur : String),
      Call.isTxValid b tr ∉ (finalizeLoop p t c n bl reg cur).calls := by
  intro n
  induction n with
  | zero =>
    intro bl reg cur
    simp [finalizeLoop_zero]
  | succ n ih =>
    intro bl reg cur
    cases hg : mapGet bl cur with
    | none =>
      rw [finalizeLoop_succ_absent p t c n bl reg cur hg]
      intro hmem
      rcases List.mem_cons.mp hmem with h1 | hmem'
      · exact Call.noConfusion h1
      · exact finalizeTxs_no_isTxValid p t cur (p.getBody cur) reg b tr hmem'
    | some par =>
      by_cases h1 : par = ""
      · rw [finalizeLoop_succ_stop p t c n bl reg cur par hg (Or.inl h1)]
        intro hmem
        rcases List.mem_cons.mp hmem with hh | hmem'
        · exact Call.noConfusion hh
        · exact finalizeTxs_no_isTxValid p t cur (p.getBody cur) reg b tr hmem'
      · by_cases h2 : par = c
        · rw [finalizeLoop_succ_stop p t c n bl reg cur par hg (Or.inr h2)]
          intro hmem
          rcases List.mem_cons.mp hmem with hh | hmem'
          · exact Call.noConfusion hh
          · exact finalizeTxs_no_isTxValid p t cur (p.getBody cur) reg b tr
              hmem'
        · rw [finalizeLoop_succ_go p t c n bl reg cur par hg h1 h2]
          intro hmem
          rcases List.mem_append.mp hmem with hmem' | hmem''
          · rcases List.mem_cons.mp hmem' with hh | hmem'''
            · exact Call.noConfusion hh
            · exact finalizeTxs_no_isTxValid p t cur (p.getBody cur) reg b tr
                hmem'''
          · exact ih _ _ _ hmem''

/-- The finalization loop never queries `isTxSuccessful` about a transaction
out of the queried block's body. -/
theorem finalizeLoop_no_succ (p : Provider) (t c b tr : String)
    (hnb : tr ∉ p.getBody b) :
    ∀ (n : Nat) (bl : List (String × String))
      (reg : List (String × List String)) (cur : String),
      Call.isTxSuccessful b tr ∉ (finalizeLoop p t c n bl reg cur).calls := by
  intro n
  induction n with
  | zero =>
    intro bl reg cur
    simp [finalizeLoop_zero]
  | succ n ih =>
    intro bl reg cur
    have hstep : Call.isTxSuccessful b tr ∉
        (finalizeTxs p t cur (p.getBody cur) reg).2 := by
      intro hmem
      obtain ⟨hb, hbody⟩ :=
        finalizeTxs_succ_mem p t cur (p.getBody cur) reg b tr hmem
      subst hb
      exact hnb hbody
    cases hg : mapGet bl cur with
    | none =>
      rw [finalizeLoop_succ_absent p t c n bl reg cur hg]
      intro hmem
      rcases List.mem_cons.mp hmem with h1 | hmem'
      · exact Call.noConfusion h1
      · exact hstep hmem'
    | some par =>
      by_cases h1 : par = ""
      · rw [finalizeLoop_succ_stop p t c n bl reg cur par hg (Or.inl h1)]
        intro hmem
        rcases List.mem_cons.mp hmem with hh | hmem'
        · exact Call.noConfusion hh
        · exact hstep hmem'
      · by_cases h2 : par = c
        · rw [finalizeLoop_succ_stop p t c n bl reg cur par hg (Or.inr h2)]
          intro hmem
          rcases List.mem_cons.mp hmem with hh | hmem'
          · exact Call.noConfusion hh
          · exact hstep hmem'
        · rw [finalizeLoop_succ_go p t c n bl reg cur par hg h1 h2]
          intro hmem
          rcases List.mem_append.mp hmem with hmem' | hmem''
          · rcases List.mem_cons.mp hmem' with hh | hmem'''
            · exact Call.noConfusion hh
            · exact hstep hmem'''
          · exact ih _ _ _ hmem''

/-- The calls emitted when processing the first visited block belong to the
loop's trace. -/
theorem finalizeLoop_head_calls (p : Provider) (t c : String) (n : Nat)
    (bl : List (String × String)) (reg : List (String × List String))
    (cur : String) (d : Call)
    (hd : d ∈ (finalizeTxs p t cur (p.getBody cur) reg).2) :
    d ∈ (finalizeLoop p t c (n + 1) bl reg cur).calls := by
  cases hg : mapGet bl cur with
  | none =>
    rw [finalizeLoop_succ_absent p t c n bl reg cur hg]
    exact List.mem_cons_of_mem _ hd
  | some par =>
    by_cases h1 : par = ""
    · rw [finalizeLoop_succ_stop p t c n bl reg cur par hg (Or.inl h1)]
      exact List.mem_cons_of_mem _ hd
    · by_cases h2 : par = c
      · rw [finalizeLoop_succ_stop p t c n bl reg cur par hg (Or.inr h2)]
        exact List.mem_cons_of_mem _ hd
      · rw [finalizeLoop_succ_go p t c n bl reg cur par hg h1 h2]
        exact List.mem_append_left _ (List.mem_cons_of_mem _ hd)

/-- A transaction absent from the registry stays absent through the loop. -/
theorem finalizeLoop_mapGet_none (p : Provider) (t c tx : String) :
    ∀ (n : Nat) (bl : List (String × String))
      (reg : List (String × List String)) (cur : String),
      mapGet reg tx = none →
      mapGet (finalizeLoop p t c n bl reg cur).registry tx = none := by
  intro n
  induction n with
  | zero =>
    intro bl reg cur h
    exact h
  | succ n ih =>
    intro bl reg cur h
    have hstep := finalizeTxs_mapGet_none p t cur (p.getBody cur) reg tx h
    cases hg : mapGet bl cur with
    | none =>
      rw [finalizeLoop_succ_absent p t c n bl reg cur hg]
      exact hstep
    | some par =>
      by_cases h1 : par = ""
      · rw [finalizeLoop_succ_stop p t c n bl reg cur par hg (Or.inl h1)]
        exact hstep
      · by_cases h2 : par = c
        · rw [finalizeLoop_succ_stop p t c n bl reg cur par hg (Or.inr h2)]
          exact hstep
        · rw [finalizeLoop_succ_go p t c n bl reg cur par hg h1 h2]
          exact ih _ _ _ hstep

/-- The loop result does not depend on the fuel, provided the fuel strictly
exceeds the size of the block index (as it does at the only call site). -/
theorem finalizeLoop_fuel (p : Provider) (t c : String) :
    ∀ (n m : Nat) (bl : List (String × String))
      (reg : List (String × List String)) (cur : String),
      bl.length < n → bl.length < m →
      finalizeLoop p t c n bl reg cur = finalizeLoop p t c m bl reg cur := by
  intro n
  induction n with
  | zero =>
    intro m bl reg cur hn
    exact absurd hn (Nat.not_lt_zero _)
  | succ n ih =>
    intro m bl reg cur hn hm
    cases m with
    | zero => exact absurd hm (Nat.not_lt_zero _)
    | succ m =>
      cases hg : mapGet bl cur with
      | none =>
        rw [finalizeLoop_succ_absent p t c n bl reg cur hg,
          finalizeLoop_succ_absent p t c m bl reg cur hg]
      | some par =>
        by_cases h1 : par = ""
        · rw [finalizeLoop_succ_stop p t c n bl reg cur par hg (Or.inl h1),
            finalizeLoop_succ_stop p t c m bl reg cur par hg (Or.inl h1)]
        · by_cases h2 : par = c
          · rw [finalizeLoop_succ_stop p t c n bl reg cur par hg (Or.inr h2),
              finalizeLoop_succ_stop p t c m bl reg cur par hg (Or.inr h2)]
          · rw [finalizeLoop_succ_go p t c n bl reg cur par hg h1 h2,
              finalizeLoop_succ_go p t c m bl reg cur par hg h1 h2]
            have hlen := mapDelete_length hg
            have hdn : (mapDelete bl cur).length < n := by omega
            have hdm : (mapDelete bl cur).length < m := by omega
            rw [ih m (mapDelete bl cur)
              (finalizeTxs p t cur (p.getBody cur) reg).1 par hdn hdm]

/-- Any sufficient fuel makes the pure walk satisfy the walk rules. -/
theorem isWalk_walkBlocks (c : String) :
    ∀ (n : Nat) (bl : List (String × String)) (cur : String),
      bl.length < n → IsWalk c bl cur (walkBlocks c n bl cur) := by
  intro n
  induction n with
  | zero =>
    intro bl cur hn
    exact absurd hn (Nat.not_lt_zero _)
  | succ n ih =>
    intro bl cur hn
    cases hg : mapGet bl cur with
    | none =>
      rw [walkBlocks_succ_absent c n bl cur hg]
      exact IsWalk.stop_absent hg
    | some par =>
      by_cases h1 : par = ""
      · rw [walkBlocks_succ_stop c n bl cur par hg (Or.inl h1)]
        exact IsWalk.stop_no_parent (h1 ▸ hg)
      · by_cases h2 : par = c
        · rw [walkBlocks_succ_stop c n bl cur par hg (Or.inr h2)]
          exact IsWalk.stop_cursor (h2 ▸ hg)
        · rw [walkBlocks_succ_go c n bl cur par hg h1 h2]
          have hlen := mapDelete_length hg
          exact IsWalk.next hg h1 h2 (ih (mapDelete bl cur) par (by omega))

/-- `mapSet` preserves uniqueness of the keys. -/
theorem mapSet_keys_nodup {α : Type} (m : List (String × α)) (k : String)
    (v : α) (hnd : (m.map Prod.fst).Nodup) :
    ((mapSet m k v).map Prod.fst).Nodup := by
  cases hg : mapGet m k with
  | none =>
    rw [mapSet_keys_of_none v hg]
    have hk : k ∉ m.map Prod.fst := (mapGet_eq_none m k).mp hg
    simp [List.nodup_append, hnd, hk]
  | some w =>
    rw [mapSet_keys_of_mem v hg]
    exact hnd

/-- One finalization visit preserves uniqueness of the registry keys. -/
theorem finalizeTxs_keys_nodup (p : Provider) (terminal current : String)
    (body : List String) (reg : List (String × List String))
    (hnd : (reg.map Prod.fst).Nodup) :
    ((finalizeTxs p terminal current body reg).1.map Prod.fst).Nodup :=
  List.Nodup.sublist
    ((finalizeTxs_sublist p terminal current body reg).map Prod.fst) hnd

/-- The finalization loop preserves uniqueness of the registry keys. -/
theorem finalizeLoop_keys_nodup (p : Provider) (t c : String) :
    ∀ (n : Nat) (bl : List (String × String))
      (reg : List (String × List String)) (cur : String),
      (reg.map Prod.fst).Nodup →
      ((finalizeLoop p t c n bl reg cur).registry.map Prod.fst).Nodup := by
  intro n
  induction n with
  | zero =>
    intro bl reg cur hnd
    exact hnd
  | succ n ih =>
    intro bl reg cur hnd
    have hstep := finalizeTxs_keys_nodup p t cur (p.getBody cur) reg hnd
    cases hg : mapGet bl cur with
    | none =>
      rw [finalizeLoop_succ_absent p t c n bl reg cur hg]
      exact hstep
    | some par =>
      by_cases h1 : par = ""
      · rw [finalizeLoop_succ_stop p t c n bl reg cur par hg (Or.inl h1)]
        exact hstep
      · by_cases h2 : par = c
        · rw [finalizeLoop_succ_stop p t c n bl reg cur par hg (Or.inr h2)]
          exact hstep
        · rw [finalizeLoop_succ_go p t c n bl reg cur par hg h1 h2]
          exact ih _ _ _ hstep

/-- Every event handler preserves uniqueness of the registry keys. -/
theorem handleEvent_keys_nodup (p : Provider) (s : TrackerState) (e : Event)
    (hnd : (s.trackedTransactions.map Prod.fst).Nodup) :
    (((handleEvent p s e).1.trackedTransactions).map Prod.fst).Nodup := by
  cases e with
  | newBlock b par =>
    show (((settleTxs p b (p.getBody b) s.trackedTransactions).1).map
      Prod.fst).Nodup
    rw [settleTxs_keys]
    exact hnd
  | newTransaction v =>
    exact mapSet_keys_nodup s.trackedTransactions v [] hnd
  | finalized b =>
    exact finalizeLoop_keys_nodup p b (s.lastFinalizedBlock.getD b)
      (s.blocks.length + 1) s.blocks s.trackedTransactions b hnd

/-- Registry keys stay unique along any run. -/
theorem runFrom_keys_nodup (p : Provider) :
    ∀ (es : List Event) (s : TrackerState),
      (s.trackedTransactions.map Prod.fst).Nodup →
      (((runFrom p s es).1.trackedTransactions).map Prod.fst).Nodup := by
  intro es
  induction es with
  | nil =>
    intro s hnd
    exact hnd
  | cons e es ih =>
    intro s hnd
    exact ih _ (handleEvent_keys_nodup p s e hnd)

/-- Registry keys are unique in every reachable state: the Nodup hypotheses
of the trichotomy and terminal-scoping theorems hold along every run. -/
theorem run_keys_nodup (p : Provider) (es : List Event) :
    (((run p es).1.trackedTransactions).map Prod.fst).Nodup :=
  runFrom_keys_nodup p es initialState List.nodup_nil

/-- A `getBody` call does not count as a settled call. -/
theorem txSettledCount_cons_getBody (tx bh : String) (l : List Call) :
    txSettledCount tx (Call.getBody bh :: l) = txSettledCount tx l := by
  simp [txSettledCount, List.countP_cons]

/-- A `getBody` call does not count as a done call. -/
theorem txDoneCount_cons_getBody (tx bh : String) (l : List Call) :
    txDoneCount tx (Call.getBody bh :: l) = txDoneCount tx l := by
  simp [txDoneCount, List.countP_cons]

/-- A `getBody` call does not count as a success query. -/
theorem succQueryCount_cons_getBody (b tx bh : String) (l : List Call) :
    succQueryCount b tx (Call.getBody bh :: l) = succQueryCount b tx l := by
  simp [succQueryCount, List.countP_cons]

/-- C1: the claim that `onTxDone` is invoked at most once per transaction
across any valid event sequence fails on the code.  In this run, `T` is
settled invalid at `B2` and `finalized B2` starts a two-block walk whose
invalid-done branch tests the terminal block's invalidity record at every
visited block, so `onTxDone` fires for `T` twice within one walk. -/
theorem done_emitted_twice_for_invalid_tx :
    txDoneCount "T" (run doubleDoneProvider doubleDoneEvents).2 = 2 := by
  decide

/-- C2: the claim that `onTxSettled` is invoked at most once per transaction
fails on the code.  Settling never removes or marks the transaction, so a
transaction included in two announced blocks is settled valid twice. -/
theorem settled_emitted_twice_for_included_tx :
    txSettledCount "T" (run doubleSettleProvider doubleSettleEvents).2 = 2 := by
  decide

/-- C6: the claim that sink calls within one event follow transaction
arrival order fails on the code.  Within the single `finalized B3` event the
walk visits `B3` (which completes `T2`) before `B2` (which completes `T1`),
so the done calls arrive as `T2` then `T1` although `T1` arrived first. -/
theorem done_order_violates_arrival_order :
    doneTxSeq (handleEvent crossBlockProvider
        (run crossBlockProvider (crossBlockEvents.take 5)).1
        (Event.finalized "B3")).2 = ["T2", "T1"] := by
  decide

/-- C4: every finalized event calls the provider's unpin primitive exactly
once, and its argument is precisely the list of blocks visited by that
event's walk (the pure parent-chain walk from the newly finalized block
bounded by the previous cursor); the other two handlers never call unpin. -/
theorem unpin_once_with_walked_blocks :
    (∀ (p : Provider) (s : TrackerState) (b : String),
      unpinArgs (onFinalized p s b).2 =
        [walkBlocks (s.lastFinalizedBlock.getD b) (s.blocks.length + 1)
          s.blocks b]) ∧
    (∀ (p : Provider) (s : TrackerState) (b par : String),
      unpinArgs (onNewBlock p s b par).2 = []) ∧
    (∀ (s : TrackerState) (tx : String), unpinArgs (onNewTx s tx).2 = []) := by
  refine ⟨?_, ?_, ?_⟩
  · intro p s b
    have h1 := finalizeLoop_no_unpin p b (s.lastFinalizedBlock.getD b)
      (s.blocks.length + 1) s.blocks s.trackedTransactions b
    have h2 := finalizeLoop_visited_eq_walk p b (s.lastFinalizedBlock.getD b)
      (s.blocks.length + 1) s.blocks s.trackedTransactions b
    show unpinArgs ((finalizeLoop p b (s.lastFinalizedBlock.getD b)
      (s.blocks.length + 1) s.blocks s.trackedTransactions b).calls ++
      [Call.unpin (finalizeLoop p b (s.lastFinalizedBlock.getD b)
        (s.blocks.length + 1) s.blocks s.trackedTransactions b).visited]) = _
    simp only [unpinArgs] at h1 ⊢
    rw [List.filterMap_append, h1]
    simp [h2]
  · intro p s b par
    show unpinArgs (Call.getBody b ::
      (settleTxs p b (p.getBody b) s.trackedTransactions).2) = []
    have h1 := settleTxs_no_unpin p b (p.getBody b) s.trackedTransactions
    simp only [unpinArgs] at h1 ⊢
    simp [h1]
  · intro s tx
    rfl

/-- C5: the finalization walk obeys the spec's stopping rules, expressed by
the `IsWalk` relation (child-to-parent order from the finalized block;
stop at the previous cursor's child, at a block missing from the index
after processing it, or at an empty parent), and in the concrete scenario
with pinned chain B1, B2, B3 and cursor G, `finalized B3` visits B3, B2,
B1 in that order, unpinning exactly that list. -/
theorem finalization_walk_rules :
    (∀ (p : Provider) (s : TrackerState) (b : String),
      ∃ v, unpinArgs (onFinalized p s b).2 = [v] ∧
        IsWalk (s.lastFinalizedBlock.getD b) s.blocks b v) ∧
    unpinArgs (run walkScenarioProvider walkScenarioEvents).2 =
      [["G"], ["B3", "B2", "B1"]] := by
  constructor
  · intro p s b
    refine ⟨walkBlocks (s.lastFinalizedBlock.getD b) (s.blocks.length + 1)
      s.blocks b, ?_, ?_⟩
    · have h1 := finalizeLoop_no_unpin p b (s.lastFinalizedBlock.getD b)
        (s.blocks.length + 1) s.blocks s.trackedTransactions b
      have h2 := finalizeLoop_visited_eq_walk p b (s.lastFinalizedBlock.getD b)
        (s.blocks.length + 1) s.blocks s.trackedTransactions b
      show unpinArgs ((finalizeLoop p b (s.lastFinalizedBlock.getD b)
        (s.blocks.length + 1) s.blocks s.trackedTransactions b).calls ++
        [Call.unpin (finalizeLoop p b (s.lastFinalizedBlock.getD b)
          (s.blocks.length + 1) s.blocks s.trackedTransactions b).visited]) = _
      simp only [unpinArgs] at h1 ⊢
      rw [List.filterMap_append, h1]
      simp [h2]
    · exact isWalk_walkBlocks (s.lastFinalizedBlock.getD b)
        (s.blocks.length + 1) s.blocks b (Nat.lt_succ_self _)
  · decide

/-- C7: during a finalization visit, a registered transaction out of the
visited block's body receives the invalid done call exactly when its
recorded invalidity set contains the walk's terminal finalized block;
invalidity recorded at any other block, the visited one included, does not
trigger it. -/
theorem invalid_done_iff_terminal_recorded (p : Provider)
    (terminal current : String) (body : List String)
    (reg : List (String × List String)) (tx : String) (inv : List String)
    (hnd : (reg.map Prod.fst).Nodup) (hget : mapGet reg tx = some inv)
    (hnb : tx ∉ body) :
    Call.txDone tx (TxOutcome.invalid current) ∈
        (finalizeTxs p terminal current body reg).2 ↔ terminal ∈ inv :=
  finalizeTxs_done_invalid_iff p terminal current body reg tx inv hnd hget hnb

/-- Witness for C7 at a concrete input: T is registered out of the body with
invalidity recorded exactly at the terminal block F. -/
theorem invalid_done_iff_terminal_recorded_inst :
    (Call.txDone "T" (TxOutcome.invalid "C") ∈
        (finalizeTxs terminalCheckProvider "F" "C" [] [("T", ["F"])]).2) ↔
      "F" ∈ ["F"] :=
  invalid_done_iff_terminal_recorded terminalCheckProvider "F" "C" []
    [("T", ["F"])] "T" ["F"] (by decide) rfl (by decide)

/-- C10: re-registering an already-known transaction resets its recorded
invalidity set to empty while keeping its original position in the registry
iteration order, reads of other keys are unchanged, and the handler emits
no call. -/
theorem reregistration_resets_invalid_set (s : TrackerState) (tx : String)
    (inv : List String) (hget : mapGet s.trackedTransactions tx = some inv) :
    (onNewTx s tx).1.trackedTransactions.map Prod.fst =
      s.trackedTransactions.map Prod.fst ∧
    mapGet (onNewTx s tx).1.trackedTransactions tx = some [] ∧
    (∀ t, t ≠ tx → mapGet (onNewTx s tx).1.trackedTransactions t =
      mapGet s.trackedTransactions t) ∧
    (onNewTx s tx).2 = [] := by
  refine ⟨?_, ?_, ?_, rfl⟩
  · exact mapSet_keys_of_mem [] hget
  · exact mapGet_mapSet_self s.trackedTransactions tx []
  · intro t ht
    exact mapGet_mapSet_ne s.trackedTransactions [] ht

/-- Witness for C10 at a concrete input: re-registering T, recorded invalid
in B and followed by U, clears its set and leaves the key order T, U. -/
theorem reregistration_resets_invalid_set_inst :
    (onNewTx reregState "T").1.trackedTransactions.map Prod.fst =
      reregState.trackedTransactions.map Prod.fst ∧
    mapGet (onNewTx reregState "T").1.trackedTransactions "T" = some [] ∧
    mapGet (onNewTx reregState "T").1.trackedTransactions "U" =
      mapGet reregState.trackedTransactions "U" ∧
    (onNewTx reregState "T").2 = [] := by
  obtain ⟨h1, h2, h3, h4⟩ :=
    reregistration_resets_invalid_set reregState "T" ["B"] rfl
  exact ⟨h1, h2, h3 "U" (by decide), h4⟩

/-- C3: a transaction that settled invalid in block b (the validity oracle
returned false there, recorded in its invalidity set) receives an
invalid-outcome done call when b is finalized, and during that finalization
the tracker makes no per-transaction provider query about it at b: no
isTxValid and no isTxSuccessful call names (b, tx).  The spec itself
mandates one getBody call per visited block, so block-level body fetches
are outside the claim's scope. -/
theorem invalid_settlement_finalized_done (p : Provider) (s : TrackerState)
    (tx b : String) (inv : List String)
    (hget : mapGet s.trackedTransactions tx = some inv) (hrec : b ∈ inv)
    (hval : p.isTxValid b tx = false) (hbody : tx ∉ p.getBody b) :
    Call.txDone tx (TxOutcome.invalid b) ∈ (onFinalized p s b).2 ∧
    Call.isTxValid b tx ∉ (onFinalized p s b).2 ∧
    Call.isTxSuccessful b tx ∉ (onFinalized p s b).2 := by
  have hdone := finalizeTxs_done_invalid_mem p b b (p.getBody b)
    s.trackedTransactions tx inv hget hbody hrec
  have hv := finalizeLoop_no_isTxValid p b (s.lastFinalizedBlock.getD b) b tx
    (s.blocks.length + 1) s.blocks s.trackedTransactions b
  have hs := finalizeLoop_no_succ p b (s.lastFinalizedBlock.getD b) b tx hbody
    (s.blocks.length + 1) s.blocks s.trackedTransactions b
  refine ⟨?_, ?_, ?_⟩
  · show Call.txDone tx (TxOutcome.invalid b) ∈
      (finalizeLoop p b (s.lastFinalizedBlock.getD b) (s.blocks.length + 1)
        s.blocks s.trackedTransactions b).calls ++
      [Call.unpin (finalizeLoop p b (s.lastFinalizedBlock.getD b)
        (s.blocks.length + 1) s.blocks s.trackedTransactions b).visited]
    exact List.mem_append_left _
      (finalizeLoop_head_calls p b (s.lastFinalizedBlock.getD b)
        s.blocks.length s.blocks s.trackedTransactions b _ hdone)
  · show Call.isTxValid b tx ∉
      (finalizeLoop p b (s.lastFinalizedBlock.getD b) (s.blocks.length + 1)
        s.blocks s.trackedTransactions b).calls ++
      [Call.unpin (finalizeLoop p b (s.lastFinalizedBlock.getD b)
        (s.blocks.length + 1) s.blocks s.trackedTransactions b).visited]
    intro hmem
    rcases List.mem_append.mp hmem with hm | hm
    · exact hv hm
    · rcases List.mem_cons.mp hm with hh | hh
      · exact Call.noConfusion hh
      · exact absurd hh (List.not_mem_nil _)
  · show Call.isTxSuccessful b tx ∉
      (finalizeLoop p b (s.lastFinalizedBlock.getD b) (s.blocks.length + 1)
        s.blocks s.trackedTransactions b).calls ++
      [Call.unpin (finalizeLoop p b (s.lastFinalizedBlock.getD b)
        (s.blocks.length + 1) s.blocks s.trackedTransactions b).visited]
    intro hmem
    rcases List.mem_append.mp hmem with hm | hm
    · exact hs hm
    · rcases List.mem_cons.mp hm with hh | hh
      · exact Call.noConfusion hh
      · exact absurd hh (List.not_mem_nil _)

/-- Witness for C3 at a concrete input: T registered with invalidity
recorded at B, nothing valid, empty bodies; finalizing B. -/
theorem invalid_settlement_finalized_done_inst :
    Call.txDone "T" (TxOutcome.invalid "B") ∈
      (onFinalized invalidDoneProvider invalidDoneState "B").2 ∧
    Call.isTxValid "B" "T" ∉
      (onFinalized invalidDoneProvider invalidDoneState "B").2 ∧
    Call.isTxSuccessful "B" "T" ∉
      (onFinalized invalidDoneProvider invalidDoneState "B").2 :=
  invalid_settlement_finalized_done invalidDoneProvider invalidDoneState
    "T" "B" ["B"] rfl (by decide) rfl (by decide)

/-- C8: on a newBlock event each registered transaction meets exactly one of
three fates: in the body, one valid settled call carrying the provider's
success answer, with the success oracle queried exactly once; out of the
body and rejected by the validity oracle, one invalid settled call with the
block recorded in its invalidity set; otherwise no sink call and an
unchanged entry.  The handler emits no done call. -/
theorem newBlock_settlement_trichotomy (p : Provider) (s : TrackerState)
    (bh ph tx : String) (inv : List String)
    (hnd : (s.trackedTransactions.map Prod.fst).Nodup)
    (hget : mapGet s.trackedTransactions tx = some inv) :
    txDoneCount tx (onNewBlock p s bh ph).2 = 0 ∧
    (tx ∈ p.getBody bh →
      txSettledCount tx (onNewBlock p s bh ph).2 = 1 ∧
      Call.txSettled tx (TxOutcome.valid bh (p.isTxSuccessful bh tx)) ∈
        (onNewBlock p s bh ph).2 ∧
      succQueryCount bh tx (onNewBlock p s bh ph).2 = 1 ∧
      mapGet (onNewBlock p s bh ph).1.trackedTransactions tx = some inv) ∧
    (tx ∉ p.getBody bh → p.isTxValid bh tx = false →
      txSettledCount tx (onNewBlock p s bh ph).2 = 1 ∧
      Call.txSettled tx (TxOutcome.invalid bh) ∈ (onNewBlock p s bh ph).2 ∧
      mapGet (onNewBlock p s bh ph).1.trackedTransactions tx =
        some (setAdd inv bh)) ∧
    (tx ∉ p.getBody bh → p.isTxValid bh tx = true →
      txSettledCount tx (onNewBlock p s bh ph).2 = 0 ∧
      succQueryCount bh tx (onNewBlock p s bh ph).2 = 0 ∧
      mapGet (onNewBlock p s bh ph).1.trackedTransactions tx = some inv) := by
  have hcalls : (onNewBlock p s bh ph).2 =
      Call.getBody bh ::
        (settleTxs p bh (p.getBody bh) s.trackedTransactions).2 := rfl
  have hreg : (onNewBlock p s bh ph).1.trackedTransactions =
      (settleTxs p bh (p.getBody bh) s.trackedTransactions).1 := rfl
  refine ⟨?_, ?_, ?_, ?_⟩
  · rw [hcalls, txDoneCount_cons_getBody]
    exact settleTxs_done_count p bh (p.getBody bh) s.trackedTransactions tx
  · intro hb
    refine ⟨?_, ?_, ?_, ?_⟩
    · rw [hcalls, txSettledCount_cons_getBody,
        settleTxs_settled_count p bh (p.getBody bh) s.trackedTransactions tx
          inv hnd hget]
      simp [hb]
    · rw [hcalls]
      exact List.mem_cons_of_mem _
        (settleTxs_settled_mem_valid p bh (p.getBody bh) s.trackedTransactions
          tx inv hget hb)
    · rw [hcalls, succQueryCount_cons_getBody,
        settleTxs_succ_count p bh (p.getBody bh) s.trackedTransactions tx inv
          hnd hget]
      simp [hb]
    · rw [hreg, settleTxs_mapGet, hget]
      simp [hb]
  · intro hnb hv
    refine ⟨?_, ?_, ?_⟩
    · rw [hcalls, txSettledCount_cons_getBody,
        settleTxs_settled_count p bh (p.getBody bh) s.trackedTransactions tx
          inv hnd hget]
      simp [hnb, hv]
    · rw [hcalls]
      exact List.mem_cons_of_mem _
        (settleTxs_settled_mem_invalid p bh (p.getBody bh)
          s.trackedTransactions tx inv hget hnb hv)
    · rw [hreg, settleTxs_mapGet, hget]
      simp [hnb, hv]
  · intro hnb hv
    refine ⟨?_, ?_, ?_⟩
    · rw [hcalls, txSettledCount_cons_getBody,
        settleTxs_settled_count p bh (p.getBody bh) s.trackedTransactions tx
          inv hnd hget]
      simp [hnb, hv]
    · rw [hcalls, succQueryCount_cons_getBody,
        settleTxs_succ_count p bh (p.getBody bh) s.trackedTransactions tx inv
          hnd hget]
      simp [hnb]
    · rw [hreg, settleTxs_mapGet, hget]
      simp [hnb, hv]

/-- Witness for C8 at a concrete input: T registered, block B's body is [T],
so the in-body branch applies. -/
theorem newBlock_settlement_trichotomy_inst :
    txSettledCount "T"
      (onNewBlock trichotomyProvider trichotomyState "B" "").2 = 1 ∧
    Call.txSettled "T" (TxOutcome.valid "B"
        (trichotomyProvider.isTxSuccessful "B" "T")) ∈
      (onNewBlock trichotomyProvider trichotomyState "B" "").2 ∧
    succQueryCount "B" "T"
      (onNewBlock trichotomyProvider trichotomyState "B" "").2 = 1 ∧
    mapGet (onNewBlock trichotomyProvider
        trichotomyState "B" "").1.trackedTransactions "T" = some [] :=
  (newBlock_settlement_trichotomy trichotomyProvider trichotomyState "B" ""
    "T" [] (by decide) rfl).2.1 (by decide)

/-- C9: a registered transaction included in a visited block's body gets, at
that visit, the success query immediately followed by the valid done call
carrying the provider's answer, and its entry does not survive the visit;
in particular when the finalized block itself contains the transaction, the
done call appears in the event's trace and the transaction is gone from the
registry after the handler. -/
theorem finalized_inclusion_done :
    (∀ (p : Provider) (terminal current : String) (body : List String)
      (reg : List (String × List String)) (tx : String) (inv : List String),
      (tx, inv) ∈ reg → tx ∈ body →
      (∃ pre post, (finalizeTxs p terminal current body reg).2 =
        pre ++ Call.isTxSuccessful current tx ::
          Call.txDone tx
            (TxOutcome.valid current (p.isTxSuccessful current tx)) :: post) ∧
      mapGet (finalizeTxs p terminal current body reg).1 tx = none) ∧
    (∀ (p : Provider) (s : TrackerState) (b tx : String) (inv : List String),
      mapGet s.trackedTransactions tx = some inv → tx ∈ p.getBody b →
      Call.txDone tx (TxOutcome.valid b (p.isTxSuccessful b tx)) ∈
        (onFinalized p s b).2 ∧
      mapGet (onFinalized p s b).1.trackedTransactions tx = none) := by
  have hvisit : ∀ (p : Provider) (terminal current : String)
      (body : List String) (reg : List (String × List String)) (tx : String)
      (inv : List String), (tx, inv) ∈ reg → tx ∈ body →
      (∃ pre post, (finalizeTxs p terminal current body reg).2 =
        pre ++ Call.isTxSuccessful current tx ::
          Call.txDone tx
            (TxOutcome.valid current (p.isTxSuccessful current tx)) :: post) ∧
      mapGet (finalizeTxs p terminal current body reg).1 tx = none := by
    intro p terminal current body reg tx inv hmem hb
    exact ⟨finalizeTxs_done_valid_decomp p terminal current body reg tx inv
      hmem hb,
      finalizeTxs_mapGet_none_of_mem_body p terminal current body reg tx hb⟩
  refine ⟨hvisit, ?_⟩
  intro p s b tx inv hget hb
  obtain ⟨⟨pre, post, hp⟩, hnone⟩ := hvisit p b b (p.getBody b)
    s.trackedTransactions tx inv (mapGet_mem hget) hb
  constructor
  · show Call.txDone tx (TxOutcome.valid b (p.isTxSuccessful b tx)) ∈
      (finalizeLoop p b (s.lastFinalizedBlock.getD b) (s.blocks.length + 1)
        s.blocks s.trackedTransactions b).calls ++
      [Call.unpin (finalizeLoop p b (s.lastFinalizedBlock.getD b)
        (s.blocks.length + 1) s.blocks s.trackedTransactions b).visited]
    refine List.mem_append_left _
      (finalizeLoop_head_calls p b (s.lastFinalizedBlock.getD b)
        s.blocks.length s.blocks s.trackedTransactions b _ ?_)
    rw [hp]
    exact List.mem_append_right _
      (List.mem_cons_of_mem _ (List.mem_cons_self _ _))
  · show mapGet (finalizeLoop p b (s.lastFinalizedBlock.getD b)
      (s.blocks.length + 1) s.blocks s.trackedTransactions b).registry tx =
      none
    cases hg : mapGet s.blocks b with
    | none =>
      rw [finalizeLoop_succ_absent p b (s.lastFinalizedBlock.getD b)
        s.blocks.length s.blocks s.trackedTransactions b hg]
      exact hnone
    | some par =>
      by_cases h1 : par = ""
      · rw [finalizeLoop_succ_stop p b (s.lastFinalizedBlock.getD b)
          s.blocks.length s.blocks s.trackedTransactions b par hg (Or.inl h1)]
        exact hnone
      · by_cases h2 : par = s.lastFinalizedBlock.getD b
        · rw [finalizeLoop_succ_stop p b (s.lastFinalizedBlock.getD b)
            s.blocks.length s.blocks s.trackedTransactions b par hg
            (Or.inr h2)]
          exact hnone
        · rw [finalizeLoop_succ_go p b (s.lastFinalizedBlock.getD b)
            s.blocks.length s.blocks s.trackedTransactions b par hg h1 h2]
          exact finalizeLoop_mapGet_none p b (s.lastFinalizedBlock.getD b) tx
            s.blocks.length (mapDelete s.blocks b) _ par hnone

/-- Witness for C9 at concrete inputs: a visit of block C with body [T] on
registry [(T, [])], and the finalization of block B whose body is [T]. -/
theorem finalized_inclusion_done_inst :
    ((∃ pre post,
        (finalizeTxs inclusionDoneProvider "F" "C" ["T"] [("T", [])]).2 =
          pre ++ Call.isTxSuccessful "C" "T" ::
            Call.txDone "T" (TxOutcome.valid "C"
              (inclusionDoneProvider.isTxSuccessful "C" "T")) :: post) ∧
      mapGet (finalizeTxs inclusionDoneProvider "F" "C" ["T"]
        [("T", [])]).1 "T" = none) ∧
    (Call.txDone "T" (TxOutcome.valid "B"
        (inclusionDoneProvider.isTxSuccessful "B" "T")) ∈
      (onFinalized inclusionDoneProvider inclusionDoneState "B").2 ∧
      mapGet (onFinalized inclusionDoneProvider
        inclusionDoneState "B").1.trackedTransactions "T" = none) :=
  ⟨finalized_inclusion_done.1 inclusionDoneProvider "F" "C" ["T"]
      [("T", [])] "T" [] (by decide) (by decide),
    finalized_inclusion_done.2 inclusionDoneProvider inclusionDoneState "B"
      "T" [] rfl (by decide)⟩

end TxTracker
